import Mathlib

/-!
Verification of the AIChatTimeline marker virtualization & synchronization
engine.  The JavaScript source is shallowly embedded: JS numbers are
modelled by `ℚ` (all the arithmetic in the verified fragments is exact on
the rationals), JS arrays by `List`, JS `Set` by `Finset`, and UTF-16
strings (where code-unit structure matters) by `List ℕ`.
-/

namespace AIChatTimeline

/-- `Math.max(0, Math.min(1, x))` — the clamp-to-`[0,1]` idiom used
throughout the source. -/
def clamp01 (x : ℚ) : ℚ := max 0 (min 1 x)

/-- `Math.round` (JS semantics: half-up, i.e. `⌊x + 1/2⌋`). -/
def jsRound (x : ℚ) : ℤ := ⌊x + (1 : ℚ)/2⌋

/-! ## Gap-constrained geometry engine (`applyMinGap`, part_003 lines 1046-1078) -/

/-- Forward pass of `applyMinGap`: `out[i] = Math.max(positions[i], out[i-1] + gap)`,
with `prev` the value of `out[i-1]` entering the pass. -/
def fwdPass (prev gap : ℚ) : List ℚ → List ℚ
  | [] => []
  | x :: xs =>
    let y := max x (prev + gap)
    y :: fwdPass y gap xs

/-- Backward pass of `applyMinGap` on the reversed tail:
`out[i] = Math.min(out[i], out[i+1] - gap)`, with `next` the value of
`out[i+1]` entering the pass. -/
def bwdPass (next gap : ℚ) : List ℚ → List ℚ
  | [] => []
  | x :: xs =>
    let y := min x (next - gap)
    y :: bwdPass y gap xs

/-- Final unconditional clamp of `applyMinGap`:
`if (out[i] < minTop) out[i] = minTop; if (out[i] > maxTop) out[i] = maxTop;`. -/
def clampAll (minTop maxTop : ℚ) (l : List ℚ) : List ℚ :=
  l.map (fun x => min (max x minTop) maxTop)

/-- `applyMinGap(positions, minTop, maxTop, gap)` (part_003 lines 1046-1078):
clamp the first position, run the forward min-gap pass; if the last value
exceeds `maxTop`, pin it there and run the backward pass; if that pushes the
first value below `minTop`, pin it and re-run the forward pass; finally clamp
everything into `[minTop, maxTop]`. -/
def applyMinGap (positions : List ℚ) (minTop maxTop gap : ℚ) : List ℚ :=
  match positions with
  | [] => []
  | p0 :: rest =>
    let first := max minTop (min p0 maxTop)
    let out := first :: fwdPass first gap rest
    let out2 :=
      if out.getLastD 0 > maxTop then
        let rev := out.reverse
        let back := (maxTop :: bwdPass maxTop gap rev.tail).reverse
        if back.headD 0 < minTop then
          minTop :: fwdPass minTop gap back.tail
        else back
      else out
    clampAll minTop maxTop out2

/-! ## Track geometry (`updateTimelineGeometry`, part_003 lines 1386-1425) -/

/-- The content height computed by `updateTimelineGeometry`:
`Math.ceil(Math.max(H, N > 0 ? 2*pad + max(0, N-1)*minGap : H))`. -/
def contentHeightOf (barH pad minGap : ℚ) (N : ℕ) : ℤ :=
  ⌈if N > 0 then max barH (2 * pad + (N - 1 : ℕ) * minGap) else barH⌉

/-- The usable inner span of the track content:
`Math.max(1, contentHeight - 2 * pad)`. -/
def usableCOf (barH pad minGap : ℚ) (N : ℕ) : ℚ :=
  max 1 ((contentHeightOf barH pad minGap N : ℚ) - 2 * pad)

/-- The pixel positions produced by `updateTimelineGeometry` for markers with
normalized bases `baseNs`: desired positions `pad + clamp01(baseN) * usableC`
followed by the min-gap relaxation on `[pad, pad + usableC]`. -/
def geometryPositions (barH pad minGap : ℚ) (baseNs : List ℚ) : List ℚ :=
  let usableC := usableCOf barH pad minGap baseNs.length
  let desiredY := baseNs.map (fun b => pad + clamp01 b * usableC)
  applyMinGap desiredY pad (pad + usableC) minGap

/-! ## Properties of the forward / backward passes -/

/-- Consecutive elements keep at least `gap` spacing. -/
def GapChain (gap : ℚ) (l : List ℚ) : Prop :=
  l.Chain' (fun a b => a + gap ≤ b)

theorem fwdPass_length (prev gap : ℚ) (l : List ℚ) :
    (fwdPass prev gap l).length = l.length := by
  induction l generalizing prev with
  | nil => rfl
  | cons x xs ih => simpa [fwdPass] using ih _

theorem bwdPass_length (next gap : ℚ) (l : List ℚ) :
    (bwdPass next gap l).length = l.length := by
  induction l generalizing next with
  | nil => rfl
  | cons x xs ih => simpa [bwdPass] using ih _

theorem fwdPass_chain (prev gap : ℚ) (l : List ℚ) :
    GapChain gap (prev :: fwdPass prev gap l) := by
  induction l generalizing prev with
  | nil => simp [GapChain, fwdPass]
  | cons x xs ih =>
    have h := ih (max x (prev + gap))
    simp only [GapChain, fwdPass, List.chain'_cons] at h ⊢
    exact ⟨le_max_right _ _, h⟩

theorem bwdPass_chain (next gap : ℚ) (l : List ℚ) :
    (next :: bwdPass next gap l).Chain' (fun a b => b + gap ≤ a) := by
  induction l generalizing next with
  | nil => simp [bwdPass]
  | cons x xs ih =>
    have h := ih (min x (next - gap))
    simp only [bwdPass, List.chain'_cons] at h ⊢
    constructor
    · have := min_le_right x (next - gap)
      linarith
    · exact h

theorem fwdPass_ge_input (prev gap : ℚ) (l : List ℚ) :
    List.Forall₂ (fun a b => a ≤ b) l (fwdPass prev gap l) := by
  induction l generalizing prev with
  | nil => simp [fwdPass]
  | cons x xs ih =>
    simp only [fwdPass]
    exact List.Forall₂.cons (le_max_left _ _) (ih _)

theorem bwdPass_le_input (next gap : ℚ) (l : List ℚ) :
    List.Forall₂ (fun a b => b ≤ a) l (bwdPass next gap l) := by
  induction l generalizing next with
  | nil => simp [bwdPass]
  | cons x xs ih =>
    simp only [bwdPass]
    exact List.Forall₂.cons (min_le_left _ _) (ih _)

/-- Along a gap-chain starting at `a`, every member dominates `a` (when
`gap ≥ 0`). -/
theorem GapChain.le_of_mem {gap : ℚ} (hg : 0 ≤ gap) {a : ℚ} {l : List ℚ}
    (h : GapChain gap (a :: l)) : ∀ x ∈ l, a ≤ x := by
  induction l generalizing a with
  | nil => simp
  | cons b bs ih =>
    simp only [GapChain, List.chain'_cons] at h
    intro x hx
    rcases List.mem_cons.1 hx with rfl | hx
    · linarith [h.1]
    · have hb := ih h.2 x hx
      linarith [h.1]

/-- Along a reversed gap-chain starting at `a`, every member is dominated by
`a` (when `gap ≥ 0`). -/
theorem gapChainRev_ge_of_mem {gap : ℚ} (hg : 0 ≤ gap) {a : ℚ} {l : List ℚ}
    (h : (a :: l).Chain' (fun x y => y + gap ≤ x)) : ∀ x ∈ l, x ≤ a := by
  induction l generalizing a with
  | nil => simp
  | cons b bs ih =>
    simp only [List.chain'_cons] at h
    intro x hx
    rcases List.mem_cons.1 hx with rfl | hx
    · linarith [h.1]
    · have hb := ih h.2 x hx
      linarith [h.1]

/-- Head-to-last accumulation along a gap-chain:
`head + (length − 1) · gap ≤ last`. -/
theorem GapChain.head_add_le_getLastD {gap : ℚ} :
    ∀ {x : ℚ} {rest : List ℚ}, GapChain gap (x :: rest) →
      x + rest.length * gap ≤ (x :: rest).getLastD 0 := by
  intro x rest
  induction rest generalizing x with
  | nil => intro _; simp
  | cons b bs ih =>
    intro h
    simp only [GapChain, List.chain'_cons] at h
    have h2 := ih h.2
    have hlast : ((x :: b :: bs).getLastD 0) = ((b :: bs).getLastD 0) := by
      simp [List.getLastD_cons]
    rw [hlast]
    have : (x + gap) + bs.length * gap ≤ b + bs.length * gap := by linarith [h.1]
    push_cast [List.length_cons]
    push_cast at h2 this
    linarith

/-- Every member of a gap-chain is dominated by the chain's last element
(when `gap ≥ 0`). -/
theorem GapChain.mem_le_getLastD {gap : ℚ} (hg : 0 ≤ gap) :
    ∀ {l : List ℚ}, GapChain gap l → ∀ x ∈ l, x ≤ l.getLastD 0 := by
  intro l
  induction l with
  | nil => simp
  | cons a rest ih =>
    intro h x hx
    cases rest with
    | nil => simp at hx; simp [hx]
    | cons b bs =>
      simp only [GapChain, List.chain'_cons] at h
      have hlast : ((a :: b :: bs).getLastD 0) = ((b :: bs).getLastD 0) := by
        simp [List.getLastD_cons]
      rw [hlast]
      rcases List.mem_cons.1 hx with rfl | hx
      · have hb := ih h.2 b (List.mem_cons_self _ _)
        linarith [h.1]
      · exact ih h.2 x hx

/-- The forward pass stays below a bound `B` when the input is already a
gap-chain bounded by `B` and the seed leaves enough room. -/
theorem fwdPass_upper {gap B : ℚ} (hg : 0 ≤ gap) :
    ∀ (xs : List ℚ) (prev : ℚ), GapChain gap xs → (∀ x ∈ xs, x ≤ B) →
      prev + xs.length * gap ≤ B → ∀ y ∈ fwdPass prev gap xs, y ≤ B := by
  intro xs
  induction xs with
  | nil => simp [fwdPass]
  | cons x rest ih =>
    intro prev hchain hub hroom y hy
    have hxB : x ≤ B := hub x (List.mem_cons_self _ _)
    have hrest_len : (0:ℚ) ≤ (rest.length : ℚ) * gap := by positivity
    have hprevgap : prev + gap ≤ B := by
      push_cast [List.length_cons] at hroom; linarith
    have hxroom : x + rest.length * gap ≤ B := by
      have h1 := GapChain.head_add_le_getLastD hchain
      have h2 : ((x :: rest).getLastD 0) ≤ B :=
        hub _ (by
          cases rest with
          | nil => simp
          | cons c cs =>
            have : ((x :: c :: cs).getLastD 0) = ((c :: cs).getLastD 0) := by
              simp [List.getLastD_cons]
            rw [this, List.getLastD_cons]
            exact List.mem_cons_of_mem _ (List.getLastD_mem_cons _ _))
      linarith
    simp only [fwdPass, List.mem_cons] at hy
    rcases hy with rfl | hy
    · rcases max_cases x (prev + gap) with ⟨hm, _⟩ | ⟨hm, _⟩ <;> rw [hm]
      · exact hxB
      · exact hprevgap
    · have hchain' : GapChain gap rest := List.Chain'.tail hchain
      have hub' : ∀ z ∈ rest, z ≤ B := fun z hz => hub z (List.mem_cons_of_mem _ hz)
      have hroom' : max x (prev + gap) + rest.length * gap ≤ B := by
        rcases max_cases x (prev + gap) with ⟨hm, _⟩ | ⟨hm, _⟩ <;> rw [hm]
        · exact hxroom
        · push_cast [List.length_cons] at hroom ⊢; linarith
      exact ih (max x (prev + gap)) hchain' hub' hroom' y hy

/-- The unconditional final clamp is the identity on a list that is already
within bounds. -/
theorem clampAll_of_bounded {minTop maxTop : ℚ} {l : List ℚ}
    (h : ∀ x ∈ l, minTop ≤ x ∧ x ≤ maxTop) : clampAll minTop maxTop l = l := by
  induction l with
  | nil => rfl
  | cons a t ih =>
    have ha := h a (List.mem_cons_self _ _)
    have hmax : max a minTop = a := max_eq_left ha.1
    have hmin : min a maxTop = a := min_eq_left ha.2
    simp only [clampAll, List.map_cons, hmax, hmin]
    have ht := ih (fun x hx => h x (List.mem_cons_of_mem _ hx))
    simpa [clampAll] using ht

/-- Master correctness of the two-pass relaxation: for a feasible track
(`minTop + (N−1)·gap ≤ maxTop`, `gap ≥ 0`), the output of `applyMinGap`
keeps at least `gap` between consecutive positions, stays within
`[minTop, maxTop]`, and has the same length as the input. -/
theorem applyMinGap_spec (positions : List ℚ) (minTop maxTop gap : ℚ)
    (hg : 0 ≤ gap)
    (hfeas : minTop + ((positions.length : ℚ) - 1) * gap ≤ maxTop) :
    GapChain gap (applyMinGap positions minTop maxTop gap) ∧
    (∀ x ∈ applyMinGap positions minTop maxTop gap, minTop ≤ x ∧ x ≤ maxTop) ∧
    (applyMinGap positions minTop maxTop gap).length = positions.length := by
  cases positions with
  | nil => refine ⟨?_, ?_, ?_⟩ <;> simp [applyMinGap, GapChain]
  | cons p0 rest =>
    have hmm : minTop ≤ maxTop := by
      have h0 : (0:ℚ) ≤ ((rest.length : ℚ)) * gap := by positivity
      have : ((p0 :: rest).length : ℚ) - 1 = (rest.length : ℚ) := by
        push_cast [List.length_cons]; ring
      rw [this] at hfeas
      linarith
    have hfeas' : minTop + (rest.length : ℚ) * gap ≤ maxTop := by
      have : ((p0 :: rest).length : ℚ) - 1 = (rest.length : ℚ) := by
        push_cast [List.length_cons]; ring
      rwa [this] at hfeas
    set first := max minTop (min p0 maxTop) with hfirst_def
    set out := first :: fwdPass first gap rest with hout_def
    have hout_len : out.length = rest.length + 1 := by
      simp [hout_def, fwdPass_length]
    have hchain_out : GapChain gap out := fwdPass_chain first gap rest
    have hfirst_lb : minTop ≤ first := le_max_left _ _
    have hfirst_ub : first ≤ maxTop := max_le hmm (min_le_right _ _)
    have hout_lb : ∀ x ∈ out, minTop ≤ x := by
      intro x hx
      rcases List.mem_cons.1 hx with rfl | hx
      · exact hfirst_lb
      · exact le_trans hfirst_lb (GapChain.le_of_mem hg hchain_out x hx)
    set revTail := out.reverse.tail with hrevTail_def
    set back := (maxTop :: bwdPass maxTop gap revTail).reverse with hback_def
    have hrevTail_len : revTail.length = rest.length := by
      simp [hrevTail_def, hout_len]
    have hback_len : back.length = rest.length + 1 := by
      simp [hback_def, bwdPass_length, hrevTail_len]
    have hbwd_chain := bwdPass_chain maxTop gap revTail
    have hchain_back : GapChain gap back := by
      rw [hback_def]
      rw [GapChain, List.chain'_reverse]
      simpa [Function.flip_def] using hbwd_chain
    have hback_ub : ∀ x ∈ back, x ≤ maxTop := by
      intro x hx
      rw [hback_def, List.mem_reverse] at hx
      rcases List.mem_cons.1 hx with rfl | hx
      · exact le_refl _
      · exact gapChainRev_ge_of_mem hg hbwd_chain x hx
    have hdef : applyMinGap (p0 :: rest) minTop maxTop gap =
        clampAll minTop maxTop
          (if out.getLastD 0 > maxTop then
            (if back.headD 0 < minTop then
              minTop :: fwdPass minTop gap back.tail
            else back)
          else out) := rfl
    rw [hdef]
    by_cases hA : out.getLastD 0 > maxTop
    · simp only [if_pos hA]
      obtain ⟨bh, bt, hbt⟩ : ∃ bh bt, back = bh :: bt := by
        cases hb : back with
        | nil => rw [hb] at hback_len; simp at hback_len
        | cons a l => exact ⟨a, l, rfl⟩
      have hbt_len : bt.length = rest.length := by
        rw [hbt] at hback_len; simpa using hback_len
      by_cases hB : back.headD 0 < minTop
      · simp only [if_pos hB]
        have hchain_bt : GapChain gap bt := by
          have := hchain_back
          rw [hbt] at this
          exact this.tail
        have hbt_ub : ∀ x ∈ bt, x ≤ maxTop := by
          intro x hx
          exact hback_ub x (by rw [hbt]; exact List.mem_cons_of_mem _ hx)
        have hroom : minTop + (bt.length : ℚ) * gap ≤ maxTop := by
          rw [hbt_len]; exact hfeas'
        have hup : ∀ y ∈ fwdPass minTop gap bt, y ≤ maxTop :=
          fwdPass_upper hg bt minTop hchain_bt hbt_ub hroom
        have hlo : ∀ y ∈ fwdPass minTop gap bt, minTop ≤ y := by
          intro y hy
          exact GapChain.le_of_mem hg (fwdPass_chain minTop gap bt) y hy
        have hbounds : ∀ x ∈ minTop :: fwdPass minTop gap bt,
            minTop ≤ x ∧ x ≤ maxTop := by
          intro x hx
          rcases List.mem_cons.1 hx with rfl | hx
          · exact ⟨le_refl _, hmm⟩
          · exact ⟨hlo x hx, hup x hx⟩
        have htail : back.tail = bt := by rw [hbt]; rfl
        rw [htail, clampAll_of_bounded hbounds]
        refine ⟨fwdPass_chain minTop gap bt, hbounds, ?_⟩
        simp [fwdPass_length, hbt_len]
      · simp only [if_neg hB]
        have hbh_lb : minTop ≤ bh := by
          have : back.headD 0 = bh := by rw [hbt]; rfl
          rw [this] at hB
          linarith [not_lt.1 hB]
        have hbounds : ∀ x ∈ back, minTop ≤ x ∧ x ≤ maxTop := by
          intro x hx
          refine ⟨?_, hback_ub x hx⟩
          have := hchain_back
          rw [hbt] at this hx
          rcases List.mem_cons.1 hx with rfl | hx
          · exact hbh_lb
          · exact le_trans hbh_lb (GapChain.le_of_mem hg this x hx)
        rw [clampAll_of_bounded hbounds]
        exact ⟨hchain_back, hbounds, by simp [hback_len]⟩
    · simp only [if_neg hA]
      have hout_ub : ∀ x ∈ out, x ≤ maxTop := by
        intro x hx
        have := GapChain.mem_le_getLastD hg hchain_out x hx
        linarith [not_lt.1 hA]
      have hbounds : ∀ x ∈ out, minTop ≤ x ∧ x ≤ maxTop :=
        fun x hx => ⟨hout_lb x hx, hout_ub x hx⟩
      rw [clampAll_of_bounded hbounds]
      exact ⟨hchain_out, hbounds, by simp [hout_len]⟩

/-- The track is always feasible for the min-gap relaxation:
`(N − 1) · minGap ≤ usableC` by construction of `contentHeight`. -/
theorem geometry_feasible (barH pad minGap : ℚ) (hgap : 0 ≤ minGap) (N : ℕ) :
    ((N : ℚ) - 1) * minGap ≤ usableCOf barH pad minGap N := by
  have husable1 : (1:ℚ) ≤ usableCOf barH pad minGap N := le_max_left _ _
  cases N with
  | zero =>
    have : ((0:ℚ) - 1) * minGap ≤ 0 := by nlinarith
    push_cast
    linarith
  | succ k =>
    have hceil : (2 * pad + (k : ℚ) * minGap) ≤
        (contentHeightOf barH pad minGap (k + 1) : ℚ) := by
      unfold contentHeightOf
      rw [if_pos (Nat.succ_pos k)]
      have h1 : (2 * pad + (k : ℚ) * minGap) ≤
          max barH (2 * pad + ((k + 1 - 1 : ℕ) : ℚ) * minGap) := by
        simp only [Nat.add_sub_cancel]
        exact le_max_right _ _
      have h2 := Int.le_ceil (max barH (2 * pad + ((k + 1 - 1 : ℕ) : ℚ) * minGap))
      exact le_trans h1 h2
    have hle : ((k + 1 : ℕ) : ℚ) - 1 = (k : ℚ) := by push_cast; ring
    rw [hle]
    have : (k : ℚ) * minGap ≤ (contentHeightOf barH pad minGap (k + 1) : ℚ) - 2 * pad := by
      linarith
    exact le_trans this (le_max_right _ _)

/-- C1 (amended).  For every marker count `N ≥ 0`, base positions
`baseN[i] ∈ [0,1]`, `pad ≥ 0` and `minGap ≥ 0`, with `contentHeight` as
computed by `updateTimelineGeometry`, the pixel positions satisfy
`position[i+1] − position[i] ≥ minGap` for every adjacent pair, and
`pad ≤ position[i] ≤ pad + max(1, contentHeight − 2·pad)` for every `i`
(the upper bound equals `contentHeight − pad` whenever
`contentHeight ≥ 2·pad + 1`). -/
theorem c1_geometry_gap_and_bounds (barH pad minGap : ℚ) (baseNs : List ℚ)
    (hpad : 0 ≤ pad) (hgap : 0 ≤ minGap)
    (hb : ∀ b ∈ baseNs, 0 ≤ b ∧ b ≤ 1) :
    GapChain minGap (geometryPositions barH pad minGap baseNs) ∧
    ∀ x ∈ geometryPositions barH pad minGap baseNs,
      pad ≤ x ∧ x ≤ pad + usableCOf barH pad minGap baseNs.length := by
  have hlen : (baseNs.map
      (fun b => pad + clamp01 b * usableCOf barH pad minGap baseNs.length)).length
      = baseNs.length := List.length_map _ _
  have hfeas : pad + (((baseNs.map
      (fun b => pad + clamp01 b * usableCOf barH pad minGap baseNs.length)).length : ℚ)
        - 1) * minGap ≤ pad + usableCOf barH pad minGap baseNs.length := by
    rw [hlen]
    linarith [geometry_feasible barH pad minGap hgap baseNs.length]
  have h := applyMinGap_spec
    (baseNs.map (fun b => pad + clamp01 b * usableCOf barH pad minGap baseNs.length))
    pad (pad + usableCOf barH pad minGap baseNs.length) minGap hgap hfeas
  exact ⟨h.1, h.2.1⟩

/-- C1, as literally stated, is false: with `N = 1`, `baseN = [1]`,
`pad = 10`, `minGap = 0` and `barHeight = 0`, `contentHeight = 20`,
`usableC = max(1, 0) = 1`, and the produced position is
`11 > contentHeight − pad = 10`. -/
theorem c1_claim_counterexample :
    (0:ℚ) ≤ 10 ∧ (0:ℚ) ≤ 0 ∧ (∀ b ∈ [(1:ℚ)], 0 ≤ b ∧ b ≤ 1) ∧
    geometryPositions 0 10 0 [1] = [11] ∧
    contentHeightOf 0 10 0 1 = 20 ∧
    ¬ ((11:ℚ) ≤ (contentHeightOf 0 10 0 1 : ℚ) - 10) := by
  have hch : contentHeightOf 0 10 0 1 = 20 := by
    unfold contentHeightOf; norm_num
  have hus : usableCOf 0 10 0 1 = 1 := by
    unfold usableCOf; rw [hch]; norm_num
  refine ⟨by norm_num, le_refl _, by norm_num, ?_, hch, ?_⟩
  · unfold geometryPositions
    simp only [List.length_cons, List.length_nil, List.map_cons, List.map_nil, hus]
    norm_num [clamp01, applyMinGap, fwdPass, clampAll]
  · rw [hch]; norm_num

/-- C4, as literally stated, is false: for 5 markers at normalized `0.5`
with `padding = 12`, `minGap = 20`, `contentHeight = 200`, the geometry
engine does not produce `[90, 110, 130, 150, 170]`. -/
theorem c4_claim_counterexample :
    geometryPositions 200 12 20 [1/2, 1/2, 1/2, 1/2, 1/2] ≠
      [90, 110, 130, 150, 170] := by
  have hus : usableCOf 200 12 20 5 = 176 := by
    unfold usableCOf contentHeightOf; norm_num
  unfold geometryPositions
  simp only [List.length_cons, List.length_nil, List.map_cons, List.map_nil, hus]
  norm_num [clamp01, applyMinGap, fwdPass, clampAll]

/-- C4 (amended).  For 5 markers all at normalized position `0.5` with
`padding = 12`, `minGap = 20`, `contentHeight = 200`: every desired
position is `100`, the forward pass yields `[100, 120, 140, 160, 180]`,
all within bounds `[12, 188]`, and the backward pass is not triggered
(last value `180 ≤ 188`), so this is the engine's output. -/
theorem c4_forward_pass :
    ((12:ℚ) + clamp01 (1/2) * usableCOf 200 12 20 5 = 100) ∧
    (max (12:ℚ) (min 100 188) :: fwdPass (max (12:ℚ) (min 100 188)) 20 [100, 100, 100, 100]
      = [100, 120, 140, 160, 180]) ∧
    (([100, 120, 140, 160, 180] : List ℚ).getLastD 0 ≤ 188) ∧
    geometryPositions 200 12 20 [1/2, 1/2, 1/2, 1/2, 1/2] = [100, 120, 140, 160, 180] ∧
    (∀ x ∈ geometryPositions 200 12 20 [1/2, 1/2, 1/2, 1/2, 1/2], 12 ≤ x ∧ x ≤ 188) := by
  have hus : usableCOf 200 12 20 5 = 176 := by
    unfold usableCOf contentHeightOf; norm_num
  have hgeo : geometryPositions 200 12 20 [1/2, 1/2, 1/2, 1/2, 1/2]
      = [100, 120, 140, 160, 180] := by
    unfold geometryPositions
    simp only [List.length_cons, List.length_nil, List.map_cons, List.map_nil, hus]
    norm_num [clamp01, applyMinGap, fwdPass, clampAll]
  refine ⟨?_, ?_, ?_, hgeo, ?_⟩
  · rw [hus]; norm_num [clamp01]
  · norm_num [fwdPass]
  · norm_num
  · rw [hgeo]; intro x hx; fin_cases hx <;> norm_num

/-- Witness for `c1_geometry_gap_and_bounds` at `barHeight = 200`,
`pad = 12`, `minGap = 20`, `baseNs = [0, 1/2, 1]`. -/
theorem c1_geometry_gap_and_bounds_witness :
    ((0:ℚ) ≤ 12 ∧ (0:ℚ) ≤ 20 ∧ (∀ b ∈ [(0:ℚ), 1/2, 1], 0 ≤ b ∧ b ≤ 1)) ∧
    (GapChain 20 (geometryPositions 200 12 20 [0, 1/2, 1]) ∧
     ∀ x ∈ geometryPositions 200 12 20 [0, 1/2, 1],
       12 ≤ x ∧ x ≤ 12 + usableCOf 200 12 20 ([(0:ℚ), 1/2, 1].length)) :=
  ⟨⟨by norm_num, by norm_num, by intro b hb; fin_cases hb <;> norm_num⟩,
   c1_geometry_gap_and_bounds 200 12 20 [0, 1/2, 1] (by norm_num) (by norm_num)
     (by intro b hb; fin_cases hb <;> norm_num)⟩

/-! ## Virtualization window (`updateVirtualRangeAndRender` / `lowerBound` /
`upperBound`, part_003 lines 1463-1548) -/

/-- The shared `while (lo < hi)` bisection loop of `lowerBound` and
`upperBound`: `mid = (lo + hi) >> 1`; when the probe `t` succeeds on
`arr[mid]` continue in `[mid+1, hi]`, else in `[lo, mid]`.
`lowerBound` instantiates `t` with `arr[mid] < x`, `upperBound` with
`arr[mid] <= x`. -/
def bsearchLoop (arr : List ℚ) (t : ℚ → Bool) (lo hi : ℕ) : ℕ :=
  if h : lo < hi then
    let mid := (lo + hi) / 2
    if t (arr.getD mid 0) then bsearchLoop arr t (mid + 1) hi
    else bsearchLoop arr t lo mid
  else lo
termination_by hi - lo
decreasing_by
  · omega
  · omega

/-- `lowerBound(arr, x)` — first index whose value is not `< x`. -/
def lowerBound (arr : List ℚ) (x : ℚ) : ℕ :=
  bsearchLoop arr (fun v => decide (v < x)) 0 arr.length

/-- `upperBound(arr, x)` — returns `lo - 1` where `lo` is the first index
whose value is not `≤ x`; `-1` when no value is `≤ x`. -/
def upperBound (arr : List ℚ) (x : ℚ) : ℤ :=
  (bsearchLoop arr (fun v => decide (v ≤ x)) 0 arr.length : ℤ) - 1

/-- The virtualization range `[start, end]` computed by
`updateVirtualRangeAndRender`: `buffer = max(VIRTUAL_BUFFER_MIN, vh)`,
`minY = st - buffer`, `maxY = st + vh + buffer`,
`start = lowerBound(yPositions, minY)`,
`end = max(start - 1, upperBound(yPositions, maxY))`. -/
def virtualRange (ys : List ℚ) (st vh bufferMin : ℚ) : ℤ × ℤ :=
  let buffer := max bufferMin vh
  let minY := st - buffer
  let maxY := st + vh + buffer
  let start : ℤ := (lowerBound ys minY : ℕ)
  (start, max (start - 1) (upperBound ys maxY))

/-- Invariant-preservation of the bisection loop: for a probe `t` that is
downward-closed along the array, the loop returns the first index where
`t` fails (within `[lo, hi]`). -/
theorem bsearchLoop_spec (arr : List ℚ) (t : ℚ → Bool)
    (hmono : ∀ i j : ℕ, i ≤ j → j < arr.length →
      t (arr.getD j 0) = true → t (arr.getD i 0) = true) :
    ∀ (d lo hi : ℕ), hi - lo = d → lo ≤ hi → hi ≤ arr.length →
      (∀ i < lo, t (arr.getD i 0) = true) →
      (∀ i, hi ≤ i → i < arr.length → t (arr.getD i 0) = false) →
      lo ≤ bsearchLoop arr t lo hi ∧ bsearchLoop arr t lo hi ≤ hi ∧
      (∀ i < bsearchLoop arr t lo hi, t (arr.getD i 0) = true) ∧
      (∀ i, bsearchLoop arr t lo hi ≤ i → i < arr.length →
        t (arr.getD i 0) = false) := by
  intro d
  induction d using Nat.strong_induction_on with
  | _ d ih =>
    intro lo hi hd hlohi hhin hbelow habove
    rw [bsearchLoop]
    by_cases h : lo < hi
    · rw [dif_pos h]
      simp only
      by_cases ht : t (arr.getD ((lo + hi) / 2) 0) = true
      · rw [if_pos ht]
        have hmidlt : (lo + hi) / 2 < hi := by omega
        have hmidlen : (lo + hi) / 2 < arr.length := lt_of_lt_of_le hmidlt hhin
        have hbelow' : ∀ i < (lo + hi) / 2 + 1, t (arr.getD i 0) = true := by
          intro i hi2
          exact hmono i ((lo + hi) / 2) (by omega) hmidlen ht
        have hres := ih (hi - ((lo + hi) / 2 + 1)) (by omega) ((lo + hi) / 2 + 1) hi
          rfl (by omega) hhin hbelow' habove
        exact ⟨by omega, hres.2.1, hres.2.2.1, hres.2.2.2⟩
      · rw [if_neg ht]
        have hmidge : lo ≤ (lo + hi) / 2 := by omega
        have habove' : ∀ i, (lo + hi) / 2 ≤ i → i < arr.length →
            t (arr.getD i 0) = false := by
          intro i hi2 hilen
          by_contra hcon
          have : t (arr.getD i 0) = true := by
            cases hb : t (arr.getD i 0) with
            | false => exact absurd hb hcon
            | true => rfl
          exact ht (hmono ((lo + hi) / 2) i hi2 hilen this)
        have hres := ih ((lo + hi) / 2 - lo) (by omega) lo ((lo + hi) / 2)
          rfl hmidge (by omega) hbelow habove'
        exact ⟨hres.1, by omega, hres.2.2.1, hres.2.2.2⟩
    · rw [dif_neg h]
      exact ⟨le_refl _, by omega, hbelow, by
        intro i hi2 hilen
        exact habove i (by omega) hilen⟩

/-- Along a sorted list, `getD` is monotone in the index (below length). -/
theorem sorted_getD_mono {ys : List ℚ} (hs : ys.Sorted (· ≤ ·)) :
    ∀ i j : ℕ, i ≤ j → j < ys.length → ys.getD i 0 ≤ ys.getD j 0 := by
  intro i j hij hj
  rcases Nat.lt_or_ge i j with hlt | hge
  · rw [List.getD_eq_getElem ys 0 (by omega), List.getD_eq_getElem ys 0 hj]
    exact List.pairwise_iff_get.1 hs ⟨i, by omega⟩ ⟨j, hj⟩ hlt
  · have : i = j := by omega
    rw [this]

/-- The `lowerBound` call site: first in-band index. -/
theorem lowerBound_spec (ys : List ℚ) (x : ℚ) (hs : ys.Sorted (· ≤ ·)) :
    lowerBound ys x ≤ ys.length ∧
    (∀ i < lowerBound ys x, ys.getD i 0 < x) ∧
    (∀ i, lowerBound ys x ≤ i → i < ys.length → x ≤ ys.getD i 0) := by
  have hmono : ∀ i j : ℕ, i ≤ j → j < ys.length →
      (decide (ys.getD j 0 < x)) = true → (decide (ys.getD i 0 < x)) = true := by
    intro i j hij hj hd
    have := sorted_getD_mono hs i j hij hj
    simp only [decide_eq_true_eq] at hd ⊢
    linarith
  have h := bsearchLoop_spec ys (fun v => decide (v < x)) hmono
    ys.length 0 ys.length (by omega) (by omega) (le_refl _)
    (by omega) (by intro i hi1 hi2; omega)
  refine ⟨h.2.1, ?_, ?_⟩
  · intro i hi2
    have := h.2.2.1 i hi2
    simpa using this
  · intro i hi1 hi2
    have := h.2.2.2 i hi1 hi2
    simp only [decide_eq_false_iff_not, not_lt] at this
    exact this

/-- The `upperBound` call site: last in-band index (as an integer, `-1`
when empty). -/
theorem upperBound_spec (ys : List ℚ) (x : ℚ) (hs : ys.Sorted (· ≤ ·)) :
    upperBound ys x ≤ (ys.length : ℤ) - 1 ∧
    (∀ i : ℕ, (i : ℤ) ≤ upperBound ys x → i < ys.length → ys.getD i 0 ≤ x) ∧
    (∀ i : ℕ, upperBound ys x < (i : ℤ) → i < ys.length → x < ys.getD i 0) := by
  have hmono : ∀ i j : ℕ, i ≤ j → j < ys.length →
      (decide (ys.getD j 0 ≤ x)) = true → (decide (ys.getD i 0 ≤ x)) = true := by
    intro i j hij hj hd
    have := sorted_getD_mono hs i j hij hj
    simp only [decide_eq_true_eq] at hd ⊢
    linarith
  have h := bsearchLoop_spec ys (fun v => decide (v ≤ x)) hmono
    ys.length 0 ys.length (by omega) (by omega) (le_refl _)
    (by omega) (by intro i hi1 hi2; omega)
  unfold upperBound
  refine ⟨by omega, ?_, ?_⟩
  · intro i hi1 hi2
    have hlt : i < bsearchLoop ys (fun v => decide (v ≤ x)) 0 ys.length := by omega
    have := h.2.2.1 i hlt
    simpa using this
  · intro i hi1 hi2
    have hge : bsearchLoop ys (fun v => decide (v ≤ x)) 0 ys.length ≤ i := by omega
    have := h.2.2.2 i hge hi2
    simp only [decide_eq_false_iff_not, not_le] at this
    exact this

/-- C2.  For every ascending pixel-position array and every scroll state,
the virtualization range `[start, end]` contains exactly the indices whose
position lies in `[st − buffer, st + vh + buffer]`, where
`buffer = max(VIRTUAL_BUFFER_MIN, vh)` is at least one viewport height. -/
theorem c2_virtualRange_exact (ys : List ℚ) (st vh bufferMin : ℚ)
    (hs : ys.Sorted (· ≤ ·)) :
    vh ≤ max bufferMin vh ∧
    ∀ i : ℕ, i < ys.length →
      (((virtualRange ys st vh bufferMin).1 ≤ (i : ℤ) ∧
        (i : ℤ) ≤ (virtualRange ys st vh bufferMin).2) ↔
       (st - max bufferMin vh ≤ ys.getD i 0 ∧
        ys.getD i 0 ≤ st + vh + max bufferMin vh)) := by
  refine ⟨le_max_right _ _, ?_⟩
  intro i hilen
  have hlb := lowerBound_spec ys (st - max bufferMin vh) hs
  have hub := upperBound_spec ys (st + vh + max bufferMin vh) hs
  simp only [virtualRange]
  constructor
  · rintro ⟨h1, h2⟩
    have hstart : lowerBound ys (st - max bufferMin vh) ≤ i := by exact_mod_cast h1
    have hin1 : st - max bufferMin vh ≤ ys.getD i 0 := hlb.2.2 i hstart hilen
    have hin2 : ys.getD i 0 ≤ st + vh + max bufferMin vh := by
      rcases le_max_iff.1 h2 with hcase | hcase
      · omega
      · exact hub.2.1 i hcase hilen
    exact ⟨hin1, hin2⟩
  · rintro ⟨h1, h2⟩
    have hstart : lowerBound ys (st - max bufferMin vh) ≤ i := by
      by_contra hcon
      have := hlb.2.1 i (by omega)
      linarith
    have hend : (i : ℤ) ≤ upperBound ys (st + vh + max bufferMin vh) := by
      by_contra hcon
      have := hub.2.2 i (by omega) hilen
      linarith
    exact ⟨by exact_mod_cast hstart, le_max_of_le_right hend⟩

/-- Witness for `c2_virtualRange_exact` at `ys = [10, 20, 30]`, `st = 0`,
`vh = 5`, `bufferMin = 0`. -/
theorem c2_virtualRange_exact_witness :
    ([10, 20, 30] : List ℚ).Sorted (· ≤ ·) ∧
    ((5:ℚ) ≤ max 0 5 ∧
     ∀ i : ℕ, i < ([10, 20, 30] : List ℚ).length →
      (((virtualRange [10, 20, 30] 0 5 0).1 ≤ (i : ℤ) ∧
        (i : ℤ) ≤ (virtualRange [10, 20, 30] 0 5 0).2) ↔
       ((0:ℚ) - max 0 5 ≤ ([10, 20, 30] : List ℚ).getD i 0 ∧
        ([10, 20, 30] : List ℚ).getD i 0 ≤ 0 + 5 + max 0 5))) :=
  ⟨by norm_num [List.sorted_cons],
   c2_virtualRange_exact [10, 20, 30] 0 5 0 (by norm_num [List.sorted_cons])⟩

/-! ## Active-marker tracker (`computeActiveByScroll`, part_003 lines 1782-1857) -/

/-- A marker as seen by the scroll tracker: its id and its element's
current viewport top offset (`getBoundingClientRect().top`). -/
structure ScrollMarker where
  id : String
  top : ℚ
deriving DecidableEq, Repr

/-- The scan of `computeActiveByScroll`: `activeId` starts at the first
marker's id; each marker with `elTop <= referencePoint` overwrites it; the
first marker above the reference point stops the loop (`break`). -/
def scanActive (acc : String) (ref : ℚ) : List ScrollMarker → String
  | [] => acc
  | m :: rest => if m.top ≤ ref then scanActive m.id ref rest else acc

/-- `computeActiveByScroll`: top epsilon (`scrollTop < 10`) forces the
first marker, bottom epsilon (`scrollTop + clientHeight >= scrollHeight - 10`)
forces the last, otherwise the reference-point scan decides.  Returns
`none` when there are no markers (the source returns without selecting). -/
def computeActiveByScroll (scrollTop scrollHeight clientHeight containerTop : ℚ)
    (markers : List ScrollMarker) : Option String :=
  match markers with
  | [] => none
  | m0 :: rest =>
    if scrollTop < 10 then some m0.id
    else if scrollHeight - 10 ≤ scrollTop + clientHeight then
      some ((m0 :: rest).getLastD m0).id
    else
      some (scanActive m0.id (containerTop + clientHeight * (45/100)) (m0 :: rest))

/-- The scan returns the id of the last marker in the longest prefix
satisfying the cutoff — for a top-sorted list, the last marker at or above
the reference point (or the seed when there is none). -/
theorem scanActive_eq_filter (ref : ℚ) :
    ∀ (l : List ScrollMarker) (acc : String),
      l.Pairwise (fun a b => a.top ≤ b.top) →
      scanActive acc ref l =
        ((l.filter (fun m => decide (m.top ≤ ref))).map ScrollMarker.id).getLastD acc := by
  intro l
  induction l with
  | nil => intro acc _; rfl
  | cons m rest ih =>
    intro acc hp
    rw [List.pairwise_cons] at hp
    by_cases hm : m.top ≤ ref
    · have hfilter : (m :: rest).filter (fun m => decide (m.top ≤ ref)) =
          m :: rest.filter (fun m => decide (m.top ≤ ref)) := by
        simp [List.filter_cons, hm]
      rw [hfilter]
      simp only [scanActive, if_pos hm, List.map_cons, List.getLastD_cons]
      exact ih m.id hp.2
    · have hfilter : (m :: rest).filter (fun m => decide (m.top ≤ ref)) = [] := by
        rw [List.filter_cons_of_neg (by simpa using hm)]
        rw [List.filter_eq_nil]
        intro a ha
        have := hp.1 a ha
        simp only [decide_eq_true_eq]
        intro hcon
        exact hm (le_trans this hcon)
      rw [hfilter]
      simp [scanActive, hm]

/-- `getLastD` commutes with `map`. -/
theorem getLastD_map_id (f : ScrollMarker → String) :
    ∀ (l : List ScrollMarker) (d : ScrollMarker),
      (l.map f).getLastD (f d) = f (l.getLastD d) := by
  intro l
  induction l with
  | nil => intro d; rfl
  | cons a rest ih =>
    intro d
    simp only [List.map_cons, List.getLastD_cons]
    exact ih a

/-- C3.  For every non-empty, top-sorted marker list: within 10px of the
top the first marker is selected; within 10px of the bottom the last; and
otherwise the last marker (in visual order) whose element top is at or
above the reference point `containerTop + 0.45 · clientHeight`, defaulting
to the first marker when none is. -/
theorem c3_active_marker (scrollTop scrollHeight clientHeight containerTop : ℚ)
    (m0 : ScrollMarker) (rest : List ScrollMarker)
    (hsorted : (m0 :: rest).Pairwise (fun a b => a.top ≤ b.top)) :
    (scrollTop < 10 →
      computeActiveByScroll scrollTop scrollHeight clientHeight containerTop (m0 :: rest)
        = some m0.id) ∧
    (¬ scrollTop < 10 → scrollHeight - 10 ≤ scrollTop + clientHeight →
      computeActiveByScroll scrollTop scrollHeight clientHeight containerTop (m0 :: rest)
        = some ((m0 :: rest).getLastD m0).id) ∧
    (¬ scrollTop < 10 → ¬ (scrollHeight - 10 ≤ scrollTop + clientHeight) →
      computeActiveByScroll scrollTop scrollHeight clientHeight containerTop (m0 :: rest)
        = some (((m0 :: rest).filter
            (fun m => decide (m.top ≤ containerTop + clientHeight * (45/100)))).getLastD m0).id) := by
  refine ⟨?_, ?_, ?_⟩
  · intro h
    simp [computeActiveByScroll, h]
  · intro h1 h2
    simp [computeActiveByScroll, h1, h2]
  · intro h1 h2
    simp only [computeActiveByScroll, if_neg h1, if_neg h2, Option.some_inj]
    rw [scanActive_eq_filter _ (m0 :: rest) m0.id hsorted]
    exact getLastD_map_id ScrollMarker.id _ m0

/-- Witness for `c3_active_marker`: two markers, mid-scroll, reference
point at 45, only the first marker above it. -/
theorem c3_active_marker_witness :
    ([⟨"a", 0⟩, ⟨"b", 100⟩] : List ScrollMarker).Pairwise (fun a b => a.top ≤ b.top) ∧
    ¬ (50:ℚ) < 10 ∧ ¬ ((1000:ℚ) - 10 ≤ 50 + 100) ∧
    computeActiveByScroll 50 1000 100 0 [⟨"a", 0⟩, ⟨"b", 100⟩] = some "a" := by
  have hsorted : ([⟨"a", 0⟩, ⟨"b", 100⟩] : List ScrollMarker).Pairwise
      (fun a b => a.top ≤ b.top) := by
    simp [List.pairwise_cons]
  have h := (c3_active_marker 50 1000 100 0 ⟨"a", 0⟩ [⟨"b", 100⟩] hsorted).2.2
    (by norm_num) (by norm_num)
  refine ⟨hsorted, by norm_num, by norm_num, ?_⟩
  rw [h]
  norm_num [List.filter_cons, List.getLastD_cons]

/-! ## Scroll synchronizer (`syncTimelineTrackToMain`, part_003 lines
1449-1461) -/

/-- The forward mapping of `syncTimelineTrackToMain`:
`ref = scrollTop + clientHeight * 0.45`;
`span = max(1, contentSpanPx)`;
`r = clamp01((ref - firstOffset) / span)`;
`maxScroll = max(0, contentHeight - trackClientHeight)`;
`target = Math.round(r * maxScroll)`. -/
def forwardTrackOffset (scrollTop clientHeight firstOffset contentSpanPx
    contentHeight trackClientHeight : ℚ) : ℤ :=
  let ref := scrollTop + clientHeight * (45/100)
  let span := max 1 contentSpanPx
  let r := clamp01 ((ref - firstOffset) / span)
  let maxScroll := max 0 (contentHeight - trackClientHeight)
  jsRound (r * maxScroll)

/-- Modelled from the spec: the reverse mapping (`§4.4 Scroll Synchronizer`,
"Reverse mapping (handle drag): inverse of the above, writing directly to
the primary container's scroll offset") is not present in the source —
`handleSliderDrag` maps the slider handle to the track offset only, and no
code maps a track offset back to the primary scroll offset.  The inverse of
the forward mapping is `ratio = trackOffset / maxScroll`;
`scrollOffset = firstOffset + ratio * span - clientHeight * 0.45`. -/
def inverseScrollOffset (trackOffset : ℤ) (clientHeight firstOffset contentSpanPx
    contentHeight trackClientHeight : ℚ) : ℚ :=
  let span := max 1 contentSpanPx
  let maxScroll := max 0 (contentHeight - trackClientHeight)
  firstOffset + ((trackOffset : ℚ) / maxScroll) * span - clientHeight * (45/100)

/-- C5, as literally stated, is false: the quantization error of the
rounded track offset is amplified by `span / maxScroll` on the way back.
With `span = 1000`, `contentHeight − trackViewportHeight = 100`,
`clientHeight = 100`, `firstOffset = 0` and `scrollTop = 0`, the forward
ratio is `0.045` (strictly inside `[0, 1]`), the track offset is
`round(4.5) = 5`, and the reconstructed scroll offset is `5`, so the
round-trip error is `5 > 1`. -/
theorem c5_claim_counterexample :
    (0 : ℚ) < ((0 : ℚ) + 100 * (45/100) - 0) / max 1 1000 ∧
    ((0 : ℚ) + 100 * (45/100) - 0) / max 1 1000 < 1 ∧
    forwardTrackOffset 0 100 0 1000 200 100 = 5 ∧
    inverseScrollOffset 5 100 0 1000 200 100 = 5 ∧
    ¬ (|(0 : ℚ) - inverseScrollOffset (forwardTrackOffset 0 100 0 1000 200 100)
          100 0 1000 200 100| ≤ 1) := by
  have hf : forwardTrackOffset 0 100 0 1000 200 100 = 5 := by
    unfold forwardTrackOffset jsRound clamp01
    norm_num
  have hi : inverseScrollOffset 5 100 0 1000 200 100 = 5 := by
    unfold inverseScrollOffset
    norm_num
  refine ⟨by norm_num, by norm_num, hf, hi, ?_⟩
  rw [hf, hi]
  norm_num

/-- C5 (amended).  For every primary scroll offset whose forward ratio is
strictly inside `[0, 1]` and a scrollable track (`maxScroll > 0`),
composing the forward mapping with the inverse mapping reproduces the
scroll offset up to the amplified rounding error:
`|scrollOffset − scrollOffset'| ≤ span / (2 · maxScroll)`.  (The claimed
`≤ 1` bound holds exactly when `span ≤ 2 · maxScroll`.) -/
theorem c5_round_trip (scrollTop clientHeight firstOffset contentSpanPx
    contentHeight trackClientHeight : ℚ)
    (hM : 0 < contentHeight - trackClientHeight)
    (hr0 : 0 < (scrollTop + clientHeight * (45/100) - firstOffset) / max 1 contentSpanPx)
    (hr1 : (scrollTop + clientHeight * (45/100) - firstOffset) / max 1 contentSpanPx < 1) :
    |scrollTop - inverseScrollOffset
        (forwardTrackOffset scrollTop clientHeight firstOffset contentSpanPx
          contentHeight trackClientHeight)
        clientHeight firstOffset contentSpanPx contentHeight trackClientHeight|
      ≤ max 1 contentSpanPx / (2 * (contentHeight - trackClientHeight)) := by
  set span := max 1 contentSpanPx with hspan_def
  set M := contentHeight - trackClientHeight with hM_def
  have hspan_pos : (0:ℚ) < span := lt_of_lt_of_le one_pos (le_max_left _ _)
  have hmaxM : max 0 M = M := max_eq_right (le_of_lt hM)
  set rr := (scrollTop + clientHeight * (45/100) - firstOffset) / span with hrr_def
  have hclamp : clamp01 rr = rr := by
    unfold clamp01
    rw [min_eq_right (le_of_lt hr1), max_eq_right (le_of_lt hr0)]
  have hfwd : forwardTrackOffset scrollTop clientHeight firstOffset contentSpanPx
      contentHeight trackClientHeight = jsRound (rr * M) := by
    simp only [forwardTrackOffset]
    rw [← hspan_def, ← hM_def, hmaxM, ← hrr_def, hclamp]
  set t := jsRound (rr * M) with ht_def
  have htle : (t : ℚ) ≤ rr * M + 1/2 := by
    rw [ht_def]
    exact_mod_cast Int.floor_le (rr * M + 1/2)
  have htge : rr * M + 1/2 - 1 < (t : ℚ) := by
    rw [ht_def]
    have := Int.lt_floor_add_one (rr * M + 1/2)
    unfold jsRound
    linarith [Int.lt_floor_add_one (rr * M + (1:ℚ)/2)]
  have hinv : inverseScrollOffset t clientHeight firstOffset contentSpanPx
      contentHeight trackClientHeight
      = firstOffset + ((t : ℚ) / M) * span - clientHeight * (45/100) := by
    unfold inverseScrollOffset
    rw [← hspan_def, ← hM_def, hmaxM]
  have hs : scrollTop = firstOffset + rr * span - clientHeight * (45/100) := by
    rw [hrr_def]
    field_simp
    ring
  rw [hfwd, hinv]
  have hdiff : scrollTop - (firstOffset + ((t : ℚ) / M) * span - clientHeight * (45/100))
      = (rr * M - (t : ℚ)) * span / M := by
    rw [hs]
    field_simp
    ring
  rw [hdiff]
  rw [abs_div, abs_mul]
  have hMabs : |M| = M := abs_of_pos hM
  have hsabs : |span| = span := abs_of_pos hspan_pos
  rw [hMabs, hsabs]
  have habs : |rr * M - (t : ℚ)| ≤ 1/2 := by
    rw [abs_le]
    constructor <;> linarith
  rw [div_le_div_iff hM (by linarith)]
  calc |rr * M - (t : ℚ)| * span * (2 * M)
      ≤ (1/2) * span * (2 * M) := by
        have h2M : (0:ℚ) < 2 * M := by linarith
        have := mul_le_mul_of_nonneg_right
          (mul_le_mul_of_nonneg_right habs (le_of_lt hspan_pos)) (le_of_lt h2M)
        linarith [this]
    _ = span * M := by ring
  done

/-- Witness for `c5_round_trip` at the counterexample configuration (the
amplified bound is `1000 / 200 = 5`, attained there). -/
theorem c5_round_trip_witness :
    ((0:ℚ) < 200 - 100 ∧
     (0:ℚ) < ((0:ℚ) + 100 * (45/100) - 0) / max 1 1000 ∧
     ((0:ℚ) + 100 * (45/100) - 0) / max 1 1000 < 1) ∧
    |(0:ℚ) - inverseScrollOffset (forwardTrackOffset 0 100 0 1000 200 100)
        100 0 1000 200 100| ≤ max 1 1000 / (2 * ((200:ℚ) - 100)) :=
  ⟨⟨by norm_num, by norm_num, by norm_num⟩,
   c5_round_trip 0 100 0 1000 200 100 (by norm_num) (by norm_num) (by norm_num)⟩

/-! ## Star persistence & sync (`toggleStar`, part_003 lines 2071-2107;
storage-change handler, part_003 lines 844-891) -/

/-- A store operation emitted by the star feature; the positional index
stands for the key `chatTimelineStar:<url>:<index>`. -/
inductive StoreOp where
  | set (index : ℕ) (question : String)
  | remove (index : ℕ)
deriving DecidableEq, Repr

/-- A marker as seen by the star feature.  `tag` stands for the JS object
identity (used by `markerMap.get` / `markers.indexOf`). -/
structure StarMarker where
  tag : ℕ
  id : String
  summary : String
  starred : Bool
deriving DecidableEq, Repr

/-- The engine state touched by the star feature. -/
structure EngineState where
  markers : List StarMarker
  markerMap : List (String × ℕ)
  starred : Finset String
  starredIndexes : Finset ℕ
deriving DecidableEq

/-- `this.markers.indexOf(m)` for the object `m` with identity `tag`:
index of the first occurrence, `none` for `-1`. -/
def indexOfTag (tag : ℕ) : List StarMarker → Option ℕ
  | [] => none
  | m :: rest => if m.tag = tag then some 0 else (indexOfTag tag rest).map (· + 1)

/-- `toggleStar(turnId)` (part_003 lines 2071-2107).  `String(turnId || '')`;
empty id, unknown id, and a marker object absent from `markers` are all
no-ops.  Otherwise membership in the starred set decides between unstar
(delete from both sets, remove the store record) and star (add to both
sets, write the store record); finally `m.starred = this.starred.has(id)`.
Returns the new state and the emitted store operations. -/
def toggleStar (st : EngineState) (turnId : Option String) : EngineState × List StoreOp :=
  let id := turnId.getD ""
  if id = "" then (st, [])
  else
    match st.markerMap.lookup id with
    | none => (st, [])
    | some tag =>
      match indexOfTag tag st.markers with
      | none => (st, [])
      | some index =>
        match st.markers[index]? with
        | none => (st, [])
        | some m =>
          if id ∈ st.starred then
            ({ st with
                starred := st.starred.erase id,
                starredIndexes := st.starredIndexes.erase index,
                markers := st.markers.set index
                  { m with starred := decide (id ∈ st.starred.erase id) } },
             [StoreOp.remove index])
          else
            ({ st with
                starred := insert id st.starred,
                starredIndexes := insert index st.starredIndexes,
                markers := st.markers.set index
                  { m with starred := decide (id ∈ insert id st.starred) } },
             [StoreOp.set index m.summary])

/-- `key.startsWith(prefixStr)` on UTF-16-free keys, via the underlying
character list (structural, so that concrete keys evaluate). -/
def jsStartsWith (key pre : String) : Bool := pre.toList.isPrefixOf key.toList

/-- `key.substring(n)` via the underlying character list. -/
def jsDrop (s : String) (n : ℕ) : String := String.mk (s.toList.drop n)

/-- `parseInt` as used on the key suffix (non-negative decimal; leading
digits, `NaN` for none). -/
def jsParseIntNat (s : String) : Option ℕ :=
  let ds := s.toList.takeWhile Char.isDigit
  if ds.isEmpty then none
  else some (ds.foldl (fun acc c => 10 * acc + (c.toNat - 48)) 0)

/-- One key of the storage-change handler (part_003 lines 844-891): keys
not matching the page prefix are skipped; the positional index is parsed
from the key suffix; the marker is located by that index; a truthy
`newValue` stars it, a missing one unstars it. -/
def onStorageKey (pre : String) (st : EngineState) (key : String)
    (newValue : Option String) : EngineState :=
  if jsStartsWith key pre then
    match jsParseIntNat (jsDrop key pre.length) with
    | none => st
    | some index =>
      match st.markers[index]? with
      | none => st
      | some marker =>
        if newValue.isSome then
          { st with
              starred := insert marker.id st.starred,
              starredIndexes := insert index st.starredIndexes,
              markers := st.markers.set index { marker with starred := true } }
        else
          { st with
              starred := st.starred.erase marker.id,
              starredIndexes := st.starredIndexes.erase index,
              markers := st.markers.set index { marker with starred := false } }
  else st

/-- The storage-change handler over all changed keys (`Object.keys(changes)
.forEach`). -/
def onStorage (pre : String) (st : EngineState)
    (changes : List (String × Option String)) : EngineState :=
  changes.foldl (fun s kv => onStorageKey pre s kv.1 kv.2) st

/-- `indexOfTag` finds an in-bounds first occurrence with the wanted tag. -/
theorem indexOfTag_spec (tag : ℕ) :
    ∀ (l : List StarMarker) (i : ℕ), indexOfTag tag l = some i →
      ∃ m, l[i]? = some m ∧ m.tag = tag := by
  intro l
  induction l with
  | nil => intro i h; simp [indexOfTag] at h
  | cons a rest ih =>
    intro i h
    by_cases ha : a.tag = tag
    · simp only [indexOfTag, if_pos ha] at h
      cases h
      exact ⟨a, by simp, ha⟩
    · simp only [indexOfTag, if_neg ha, Option.map_eq_some'] at h
      obtain ⟨j, hj, rfl⟩ := h
      obtain ⟨m, hm, hmt⟩ := ih j hj
      exact ⟨m, by simpa using hm, hmt⟩

/-- Setting the found element to a new element with the same tag does not
move the first occurrence. -/
theorem indexOfTag_set (tag : ℕ) :
    ∀ (l : List StarMarker) (i : ℕ) (a : StarMarker), indexOfTag tag l = some i →
      a.tag = tag → indexOfTag tag (l.set i a) = some i := by
  intro l
  induction l with
  | nil => intro i a h; simp [indexOfTag] at h
  | cons b rest ih =>
    intro i a h hat
    by_cases hb : b.tag = tag
    · simp only [indexOfTag, if_pos hb] at h
      cases h
      simp [List.set_cons_zero, indexOfTag, hat]
    · simp only [indexOfTag, if_neg hb, Option.map_eq_some'] at h
      obtain ⟨j, hj, rfl⟩ := h
      simp only [List.set_cons_succ, indexOfTag, if_neg hb, Option.map_eq_some']
      exact ⟨j, ih j a hj hat, rfl⟩

/-- Writing back the element already at an index is the identity. -/
theorem list_set_getElem?_self :
    ∀ (l : List StarMarker) (i : ℕ) (m : StarMarker), l[i]? = some m →
      l.set i m = l := by
  intro l
  induction l with
  | nil => intro i m h; simp at h
  | cons a rest ih =>
    intro i m h
    cases i with
    | zero => simp at h; simp [h]
    | succ j =>
      simp only [List.getElem?_cons_succ] at h
      simp [List.set_cons_succ, ih j m h]

/-- C6.  Toggling the star of a marker that is present in `markerMap` and
in `markers` twice restores the starred set, the starred-index set and the
marker's flag (indeed the whole engine state) exactly, and emits one `set`
followed by one `remove` (or one `remove` followed by one `set`) for the
same positional key. -/
theorem c6_toggleStar_twice (st : EngineState) (id : String) (tag index : ℕ)
    (m : StarMarker)
    (hid : ¬ id = "")
    (hlookup : st.markerMap.lookup id = some tag)
    (hfind : indexOfTag tag st.markers = some index)
    (hget : st.markers[index]? = some m)
    (hconsist : id ∈ st.starred ↔ index ∈ st.starredIndexes)
    (hflag : m.starred = decide (id ∈ st.starred)) :
    (toggleStar (toggleStar st (some id)).1 (some id)).1 = st ∧
    (((toggleStar st (some id)).2 = [StoreOp.set index m.summary] ∧
      (toggleStar (toggleStar st (some id)).1 (some id)).2 = [StoreOp.remove index]) ∨
     ((toggleStar st (some id)).2 = [StoreOp.remove index] ∧
      (toggleStar (toggleStar st (some id)).1 (some id)).2 = [StoreOp.set index m.summary])) := by
  have htag : m.tag = tag := by
    obtain ⟨m', hm', ht⟩ := indexOfTag_spec tag st.markers index hfind
    rw [hget] at hm'
    cases hm'
    exact ht
  have hlen : index < st.markers.length := by
    rcases List.getElem?_eq_some.1 hget with ⟨h1, _⟩
    exact h1
  by_cases hstar : id ∈ st.starred
  · -- starred: first toggle removes, second re-adds
    have hm_eq : ({ m with starred := false } : StarMarker).tag = tag := htag
    have h1 : toggleStar st (some id) = ({ st with
        starred := st.starred.erase id,
        starredIndexes := st.starredIndexes.erase index,
        markers := st.markers.set index { m with starred := false } },
        [StoreOp.remove index]) := by
      simp only [toggleStar, Option.getD_some, if_neg hid, hlookup, hfind, hget,
        if_pos hstar]
      simp
    have hfind1 : indexOfTag tag (st.markers.set index { m with starred := false })
        = some index := indexOfTag_set tag st.markers index _ hfind hm_eq
    have hget1 : (st.markers.set index { m with starred := false })[index]?
        = some { m with starred := false } := List.getElem?_set_eq_of_lt _ hlen
    have hmem1 : ¬ id ∈ st.starred.erase id := by simp
    have h2 : toggleStar ({ st with
        starred := st.starred.erase id,
        starredIndexes := st.starredIndexes.erase index,
        markers := st.markers.set index { m with starred := false } }) (some id)
        = ({ st with
            starred := insert id (st.starred.erase id),
            starredIndexes := insert index (st.starredIndexes.erase index),
            markers := (st.markers.set index { m with starred := false }).set index
              { m with starred := true } },
           [StoreOp.set index m.summary]) := by
      simp only [toggleStar, Option.getD_some, if_neg hid, hlookup, hfind1, hget1,
        if_neg hmem1]
      simp
    rw [h1]
    simp only [h2]
    constructor
    · have hflag' : m.starred = true := by simpa [hstar] using hflag
      have hmark : ({ m with starred := true } : StarMarker) = m := by
        cases m
        simp_all
      rw [List.set_set, Finset.insert_erase hstar,
        Finset.insert_erase (hconsist.1 hstar), hmark,
        list_set_getElem?_self st.markers index m hget]
    · right
      exact ⟨trivial, trivial⟩
  · -- not starred: first toggle adds, second removes
    have hm_eq : ({ m with starred := true } : StarMarker).tag = tag := htag
    have h1 : toggleStar st (some id) = ({ st with
        starred := insert id st.starred,
        starredIndexes := insert index st.starredIndexes,
        markers := st.markers.set index { m with starred := true } },
        [StoreOp.set index m.summary]) := by
      simp only [toggleStar, Option.getD_some, if_neg hid, hlookup, hfind, hget,
        if_neg hstar]
      simp
    have hfind1 : indexOfTag tag (st.markers.set index { m with starred := true })
        = some index := indexOfTag_set tag st.markers index _ hfind hm_eq
    have hget1 : (st.markers.set index { m with starred := true })[index]?
        = some { m with starred := true } := List.getElem?_set_eq_of_lt _ hlen
    have hmem1 : id ∈ insert id st.starred := Finset.mem_insert_self _ _
    have h2 : toggleStar ({ st with
        starred := insert id st.starred,
        starredIndexes := insert index st.starredIndexes,
        markers := st.markers.set index { m with starred := true } }) (some id)
        = ({ st with
            starred := (insert id st.starred).erase id,
            starredIndexes := (insert index st.starredIndexes).erase index,
            markers := (st.markers.set index { m with starred := true }).set index
              { m with starred := false } },
           [StoreOp.remove index]) := by
      simp only [toggleStar, Option.getD_some, if_neg hid, hlookup, hfind1, hget1,
        if_pos hmem1]
      simp
    rw [h1]
    simp only [h2]
    constructor
    · have hflag' : m.starred = false := by simpa [hstar] using hflag
      have hmark : ({ m with starred := false } : StarMarker) = m := by
        cases m
        simp_all
      have hidx : ¬ index ∈ st.starredIndexes := fun hc => hstar (hconsist.2 hc)
      rw [List.set_set, Finset.erase_insert hstar, Finset.erase_insert hidx, hmark,
        list_set_getElem?_self st.markers index m hget]
    · left
      exact ⟨trivial, trivial⟩

/-- Witness for `c6_toggleStar_twice`: one marker, initially unstarred. -/
theorem c6_toggleStar_twice_witness :
    (¬ "a" = "" ∧
     (EngineState.mk [⟨0, "a", "q", false⟩] [("a", 0)] ∅ ∅).markerMap.lookup "a" = some 0 ∧
     indexOfTag 0 (EngineState.mk [⟨0, "a", "q", false⟩] [("a", 0)] ∅ ∅).markers = some 0 ∧
     (EngineState.mk [⟨0, "a", "q", false⟩] [("a", 0)] ∅ ∅).markers[0]? = some ⟨0, "a", "q", false⟩) ∧
    (toggleStar (toggleStar (EngineState.mk [⟨0, "a", "q", false⟩] [("a", 0)] ∅ ∅)
        (some "a")).1 (some "a")).1
      = EngineState.mk [⟨0, "a", "q", false⟩] [("a", 0)] ∅ ∅ :=
  ⟨⟨by decide, by decide, by decide, by decide⟩,
   (c6_toggleStar_twice (EngineState.mk [⟨0, "a", "q", false⟩] [("a", 0)] ∅ ∅)
      "a" 0 0 ⟨0, "a", "q", false⟩ (by decide) (by decide) (by decide) (by decide)
      (by decide) (by decide)).1⟩

/-- C10.  `toggleStar` is a total no-op on unknown input: a null/empty id,
an id with no `markerMap` entry, or a mapped marker object that is no
longer in the `markers` array leave the whole state unchanged and emit no
store operation. -/
theorem c10_toggleStar_noop (st : EngineState) (turnId : Option String)
    (h : turnId.getD "" = "" ∨
         st.markerMap.lookup (turnId.getD "") = none ∨
         ∃ tag, st.markerMap.lookup (turnId.getD "") = some tag ∧
                indexOfTag tag st.markers = none) :
    toggleStar st turnId = (st, []) := by
  rcases h with h | h | ⟨tag, h1, h2⟩
  · simp [toggleStar, h]
  · by_cases hid : turnId.getD "" = ""
    · simp [toggleStar, hid]
    · simp [toggleStar, hid, h]
  · by_cases hid : turnId.getD "" = ""
    · simp [toggleStar, hid]
    · simp [toggleStar, hid, h1, h2]

/-- Witness for `c10_toggleStar_noop`: a null (`none`) turn id. -/
theorem c10_toggleStar_noop_witness :
    ((none : Option String).getD "" = "" ∨
     (EngineState.mk [⟨0, "a", "q", false⟩] [("a", 0)] ∅ ∅).markerMap.lookup
        ((none : Option String).getD "") = none ∨
     ∃ tag, (EngineState.mk [⟨0, "a", "q", false⟩] [("a", 0)] ∅ ∅).markerMap.lookup
        ((none : Option String).getD "") = some tag ∧
        indexOfTag tag (EngineState.mk [⟨0, "a", "q", false⟩] [("a", 0)] ∅ ∅).markers = none) ∧
    toggleStar (EngineState.mk [⟨0, "a", "q", false⟩] [("a", 0)] ∅ ∅) none
      = (EngineState.mk [⟨0, "a", "q", false⟩] [("a", 0)] ∅ ∅, []) :=
  ⟨Or.inl rfl,
   c10_toggleStar_noop (EngineState.mk [⟨0, "a", "q", false⟩] [("a", 0)] ∅ ∅) none
     (Or.inl rfl)⟩

/-- C7.  A store-change notification for a key `<prefix><k>` with
`newValue` missing clears the starred flag of the marker currently at
positional index `k`, removes the marker's id and the index from the
starred sets, and leaves every other marker (all its fields) unchanged. -/
theorem c7_storage_remove (pre key : String) (st : EngineState) (k : ℕ)
    (marker : StarMarker)
    (hpre : jsStartsWith key pre = true)
    (hparse : jsParseIntNat (jsDrop key pre.length) = some k)
    (hget : st.markers[k]? = some marker) :
    onStorage pre st [(key, none)] =
      { st with
          starred := st.starred.erase marker.id,
          starredIndexes := st.starredIndexes.erase k,
          markers := st.markers.set k { marker with starred := false } } ∧
    (onStorage pre st [(key, none)]).markers[k]? = some { marker with starred := false } ∧
    ∀ j : ℕ, j ≠ k → (onStorage pre st [(key, none)]).markers[j]? = st.markers[j]? := by
  have hlen : k < st.markers.length := by
    rcases List.getElem?_eq_some.1 hget with ⟨h1, _⟩
    exact h1
  have hstep : onStorage pre st [(key, none)] = { st with
      starred := st.starred.erase marker.id,
      starredIndexes := st.starredIndexes.erase k,
      markers := st.markers.set k { marker with starred := false } } := by
    simp only [onStorage, List.foldl_cons, List.foldl_nil, onStorageKey,
      if_pos hpre, hparse, hget, Option.isSome_none, Bool.false_eq_true, if_neg]
    simp
  refine ⟨hstep, ?_, ?_⟩
  · rw [hstep]
    exact List.getElem?_set_eq_of_lt _ hlen
  · intro j hj
    rw [hstep]
    exact List.getElem?_set_ne (fun hc => hj hc.symm)

/-- Witness for `c7_storage_remove`: page identity `p`, marker index `1`
of two, initially starred. -/
theorem c7_storage_remove_witness :
    (jsStartsWith "chatTimelineStar:p:1" "chatTimelineStar:p:" = true ∧
     jsParseIntNat (jsDrop "chatTimelineStar:p:1" "chatTimelineStar:p:".length) = some 1 ∧
     (EngineState.mk [⟨0, "a", "qa", false⟩, ⟨1, "b", "qb", true⟩] [("a", 0), ("b", 1)]
        {"b"} {1}).markers[1]? = some ⟨1, "b", "qb", true⟩) ∧
    onStorage "chatTimelineStar:p:"
        (EngineState.mk [⟨0, "a", "qa", false⟩, ⟨1, "b", "qb", true⟩] [("a", 0), ("b", 1)]
          {"b"} {1}) [("chatTimelineStar:p:1", none)]
      = { EngineState.mk [⟨0, "a", "qa", false⟩, ⟨1, "b", "qb", true⟩] [("a", 0), ("b", 1)]
            {"b"} {1} with
          starred := ({"b"} : Finset String).erase "b",
          starredIndexes := ({1} : Finset ℕ).erase 1,
          markers := [⟨0, "a", "qa", false⟩, ⟨1, "b", "qb", true⟩].set 1
            ⟨1, "b", "qb", false⟩ } :=
  ⟨⟨by decide, by decide, by decide⟩,
   (c7_storage_remove "chatTimelineStar:p:" "chatTimelineStar:p:1"
      (EngineState.mk [⟨0, "a", "qa", false⟩, ⟨1, "b", "qb", true⟩] [("a", 0), ("b", 1)]
        {"b"} {1}) 1 ⟨1, "b", "qb", true⟩ (by decide) (by decide) (by decide)).1⟩

/-! ## Marker model builder (`recalculateAndRenderMarkers`, part_003 lines
513-557) -/

/-- The normalized-position computation of `recalculateAndRenderMarkers`
on the measured top offsets: sort ascending (a stable comparison sort
models `Array.prototype.sort` with comparator `rectA.top - rectB.top`),
measure `contentSpan = lastTop - firstTop`, replace it by `1` when there
are fewer than 2 elements or it is non-positive, and map each top to
`clamp01((top - firstTop) / contentSpan)`.  Returns the `baseN` list (in
sorted order) and the span. -/
def buildBaseNs (tops : List ℚ) : List ℚ × ℚ :=
  let sorted := tops.insertionSort (· ≤ ·)
  match sorted with
  | [] => ([], 1)
  | t0 :: _ =>
    let lastT := sorted.getLastD t0
    let span0 := lastT - t0
    let span := if sorted.length < 2 ∨ span0 ≤ 0 then 1 else span0
    (sorted.map (fun t => clamp01 ((t - t0) / span)), span)

/-- In a `≤`-sorted list every member is at most the last element. -/
theorem sorted_mem_le_getLastD {l : List ℚ} (hs : l.Sorted (· ≤ ·)) :
    ∀ x ∈ l, x ≤ l.getLastD 0 := by
  induction l with
  | nil => simp
  | cons a rest ih =>
    intro x hx
    cases rest with
    | nil => simp at hx; simp [hx]
    | cons b bs =>
      have hlast : ((a :: b :: bs).getLastD 0) = ((b :: bs).getLastD 0) := by
        simp [List.getLastD_cons]
      rw [hlast]
      rcases List.mem_cons.1 hx with rfl | hx
      · have hb := ih (List.pairwise_cons.1 hs).2 b (List.mem_cons_self _ _)
        exact le_trans ((List.pairwise_cons.1 hs).1 b (List.mem_cons_self _ _)) hb
      · exact ih (List.pairwise_cons.1 hs).2 x hx

/-- In a `≤`-sorted non-empty list the head is at most every member. -/
theorem sorted_headD_le_mem {l : List ℚ} (hs : l.Sorted (· ≤ ·)) :
    ∀ x ∈ l, l.headD 0 ≤ x := by
  cases l with
  | nil => simp
  | cons a rest =>
    intro x hx
    rcases List.mem_cons.1 hx with rfl | hx
    · simp
    · simpa using (List.pairwise_cons.1 hs).1 x hx

/-- C8, as literally stated, is false: the builder does not use
`span = max(1, lastTop − firstTop)`.  For tops `[0, 1/2]` the measured
span `1/2` is positive and is used as-is, giving `baseN = [0, 1]`, whereas
`clamp01((1/2 − 0) / max(1, 1/2)) = 1/2`. -/
theorem c8_claim_counterexample :
    (buildBaseNs [0, 1/2]).2 = 1/2 ∧
    max (1:ℚ) ((1:ℚ)/2 - 0) = 1 ∧
    (buildBaseNs [0, 1/2]).1 = [0, 1] ∧
    [0, 1] ≠ [(0:ℚ), clamp01 (((1:ℚ)/2 - 0) / max 1 ((1:ℚ)/2 - 0))] := by
  have hsorted : ([0, 1/2] : List ℚ).insertionSort (· ≤ ·) = [0, 1/2] := by
    norm_num [List.insertionSort, List.orderedInsert]
  have hbuild : buildBaseNs [0, 1/2] = ([0, 1], 1/2) := by
    unfold buildBaseNs
    rw [hsorted]
    norm_num [List.getLastD_cons, clamp01]
  refine ⟨by rw [hbuild], by norm_num, by rw [hbuild], ?_⟩
  have hc : clamp01 (((1:ℚ)/2 - 0) / max 1 ((1:ℚ)/2 - 0)) = 1/2 := by
    norm_num [clamp01]
  rw [hc]
  norm_num

/-- C8 (amended).  The builder sorts the tops ascending and sets
`baseN = clamp01((top − firstTop) / span)` where `span` is the measured
`lastTop − firstTop` when there are at least two elements and it is
positive, and `1` otherwise (not `max(1, lastTop − firstTop)`: a
fractional positive measured span below 1 is used as-is).  In the
degenerate case (0 or 1 elements, or non-positive measured span)
`span = 1` and every `baseN` is `0`; the produced `baseN` are always in
`[0, 1]` and in ascending order. -/
theorem c8_marker_model (tops : List ℚ) :
    (buildBaseNs tops).1.length = tops.length ∧
    (∀ b ∈ (buildBaseNs tops).1, 0 ≤ b ∧ b ≤ 1) ∧
    (buildBaseNs tops).1.Sorted (· ≤ ·) ∧
    (buildBaseNs tops).1 = (tops.insertionSort (· ≤ ·)).map
      (fun t => clamp01 ((t - (tops.insertionSort (· ≤ ·)).headD 0) / (buildBaseNs tops).2)) ∧
    ((2 ≤ tops.length ∧
        0 < (tops.insertionSort (· ≤ ·)).getLastD 0 - (tops.insertionSort (· ≤ ·)).headD 0) →
      (buildBaseNs tops).2
        = (tops.insertionSort (· ≤ ·)).getLastD 0 - (tops.insertionSort (· ≤ ·)).headD 0) ∧
    ((tops.length < 2 ∨
        (tops.insertionSort (· ≤ ·)).getLastD 0 - (tops.insertionSort (· ≤ ·)).headD 0 ≤ 0) →
      (buildBaseNs tops).2 = 1 ∧ ∀ b ∈ (buildBaseNs tops).1, b = 0) := by
  have hsort : (tops.insertionSort (· ≤ ·)).Sorted (· ≤ ·) :=
    List.sorted_insertionSort _ tops
  have hlen : (tops.insertionSort (· ≤ ·)).length = tops.length :=
    (List.perm_insertionSort _ tops).length_eq
  cases hS : tops.insertionSort (· ≤ ·) with
  | nil =>
    have h0 : tops.length = 0 := by rw [← hlen, hS]; rfl
    have hbuild : buildBaseNs tops = ([], 1) := by
      unfold buildBaseNs
      rw [hS]
    refine ⟨by simp [hbuild, h0], by simp [hbuild], by simp [hbuild], ?_, ?_, ?_⟩
    · simp [hbuild, hS]
    · intro h; omega
    · intro h; simp [hbuild]
  | cons t0 rest =>
    rw [hS] at hsort hlen
    set S := t0 :: rest with hS_def
    set lastT := S.getLastD t0 with hlast_def
    set span0 := lastT - t0 with hspan0_def
    set span := if S.length < 2 ∨ span0 ≤ 0 then 1 else span0 with hspan_def
    have hbuild : buildBaseNs tops
        = (S.map (fun t => clamp01 ((t - t0) / span)), span) := by
      unfold buildBaseNs
      rw [hS]
    have hlastD : S.getLastD 0 = lastT := by
      rw [hlast_def, hS_def]
      cases rest with
      | nil => simp
      | cons b bs => simp only [List.getLastD_cons]
    have hheadD : S.headD 0 = t0 := by rw [hS_def]; rfl
    have hspan_pos : 0 < span := by
      rw [hspan_def]
      by_cases hc : S.length < 2 ∨ span0 ≤ 0
      · rw [if_pos hc]; norm_num
      · rw [if_neg hc]
        push_neg at hc
        exact hc.2
    have hb01 : ∀ b ∈ S.map (fun t => clamp01 ((t - t0) / span)), 0 ≤ b ∧ b ≤ 1 := by
      intro b hb
      rcases List.mem_map.1 hb with ⟨t, _, rfl⟩
      unfold clamp01
      constructor
      · exact le_max_left _ _
      · exact max_le (by norm_num) (min_le_left _ _)
    have hcond_iff : (S.length < 2 ∨ span0 ≤ 0) ↔
        (tops.length < 2 ∨ S.getLastD 0 - S.headD 0 ≤ 0) := by
      rw [hlen, hlastD, hheadD]
    refine ⟨?_, ?_, ?_, ?_, ?_, ?_⟩
    · rw [hbuild]
      simpa using hlen
    · rw [hbuild]; exact hb01
    · rw [hbuild]
      refine List.Pairwise.map _ ?_ hsort
      intro a b hab
      unfold clamp01
      have hdiv : (a - t0) / span ≤ (b - t0) / span :=
        (div_le_div_right hspan_pos).2 (by linarith)
      exact max_le_max (le_refl 0) (min_le_min (le_refl 1) hdiv)
    · rw [hbuild]
      rw [hheadD]
    · intro ⟨h2, hpos⟩
      rw [hbuild]
      show span = _
      have hns : ¬ (S.length < 2 ∨ span0 ≤ 0) := by
        rw [hcond_iff]
        push_neg
        exact ⟨by omega, by linarith⟩
      rw [hspan_def, if_neg hns, hspan0_def, hlastD, hheadD]
    · intro hdeg
      have hcond : S.length < 2 ∨ span0 ≤ 0 := hcond_iff.2 hdeg
      have hspan1 : span = 1 := by rw [hspan_def, if_pos hcond]
      refine ⟨by rw [hbuild]; exact hspan1, ?_⟩
      rw [hbuild]
      intro b hb
      rcases List.mem_map.1 hb with ⟨t, htS, rfl⟩
      have ht_eq : t = t0 := by
        rcases hcond with hc | hc
        · have hrest : rest = [] := by
            rw [hS_def] at hc
            simp only [List.length_cons] at hc
            have : rest.length = 0 := by omega
            exact List.length_eq_zero.1 this
          rw [hS_def, hrest] at htS
          simpa using htS
        · have h1 : t0 ≤ t := by
            have := sorted_headD_le_mem hsort t htS
            rwa [hheadD] at this
          have h2 : t ≤ lastT := by
            have := sorted_mem_le_getLastD hsort t htS
            rwa [hlastD] at this
          have : span0 = lastT - t0 := hspan0_def
          linarith
      rw [ht_eq, hspan1]
      simp [clamp01]

/-! ## Tooltip truncation (`_safeSlice`, part_003 lines 1739-1753;
`truncateToFiveLines`, lines 1674-1734).  Strings are modelled as lists of
UTF-16 code units. -/

/-- `charCode >= 0xD800 && charCode <= 0xDBFF`. -/
def isHighSurrogate (c : ℕ) : Bool := decide (0xD800 ≤ c) && decide (c ≤ 0xDBFF)

/-- Low-surrogate range `0xDC00-0xDFFF`. -/
def isLowSurrogate (c : ℕ) : Bool := decide (0xDC00 ≤ c) && decide (c ≤ 0xDFFF)

/-- `_safeSlice(text, end)`: whole string for `end >= length`, empty for
`end <= 0`; otherwise back off one code unit when the unit before the cut
is a high surrogate. -/
def safeSlice (text : List ℕ) (cut : ℤ) : List ℕ :=
  if (text.length : ℤ) ≤ cut then text
  else if cut ≤ 0 then []
  else if isHighSurrogate (text.getD (cut.toNat - 1) 0) then
    text.take (cut.toNat - 1)
  else text.take cut.toNat

/-- JS whitespace (the code units relevant after the `\s+`→space
normalization and for `trimEnd`). -/
def jsWhitespaceCU (c : ℕ) : Bool :=
  ([9, 10, 11, 12, 13, 32, 160, 0x2028, 0x2029, 0xFEFF] : List ℕ).contains c

/-- `String.prototype.trimEnd`. -/
def jsTrimEnd (l : List ℕ) : List ℕ := (l.reverse.dropWhile jsWhitespaceCU).reverse

/-- The binary search of `truncateToFiveLines`: `while (lo <= hi)`,
`mid = (lo + hi) >> 1`, candidate `\_safeSlice(raw, mid).trimEnd() + ell`
measured by the abstract fit test (`offsetHeight <= maxH` in the DOM);
a fitting candidate records `ans = mid` and searches right, otherwise
left. -/
def truncLoop (raw : List ℕ) (fits : List ℕ → Bool) (ell : ℕ)
    (lo : ℕ) (hi : ℤ) (ans : ℕ) : ℕ :=
  if h : (lo : ℤ) ≤ hi then
    let mid := ((lo : ℤ) + hi).toNat / 2
    if fits (jsTrimEnd (safeSlice raw (mid : ℤ)) ++ [ell]) then
      truncLoop raw fits ell (mid + 1) hi mid
    else truncLoop raw fits ell lo ((mid : ℤ) - 1) ans
  else ans
termination_by (hi + 1 - (lo : ℤ)).toNat
decreasing_by
  · omega
  · omega

/-- `truncateToFiveLines` on the normalized text `raw`, with the DOM
height measurement abstracted into the fit test `fits`: fast path when the
full text fits, otherwise binary search for the longest fitting prefix and
append the ellipsis (`(ans >= raw.length) ? raw : safeSlice(...).trimEnd()
+ ell`). -/
def truncateToFiveLines (raw : List ℕ) (fits : List ℕ → Bool) (ell : ℕ) : List ℕ :=
  if fits raw then raw
  else
    let ans := truncLoop raw fits ell 0 (raw.length : ℤ) 0
    if raw.length ≤ ans then raw
    else jsTrimEnd (safeSlice raw (ans : ℤ)) ++ [ell]

/-- Well-formed UTF-16: every high surrogate is immediately followed by a
low surrogate. -/
def WellFormedUTF16 (l : List ℕ) : Prop :=
  ∀ i, i < l.length → isHighSurrogate (l.getD i 0) = true →
    i + 1 < l.length ∧ isLowSurrogate (l.getD (i + 1) 0) = true

instance (l : List ℕ) : Decidable (WellFormedUTF16 l) := by
  unfold WellFormedUTF16
  infer_instance

/-- The surrogate ranges are disjoint. -/
theorem high_low_disjoint (c : ℕ) :
    isHighSurrogate c = true → isLowSurrogate c = true → False := by
  unfold isHighSurrogate isLowSurrogate
  intro h1 h2
  simp only [Bool.and_eq_true, decide_eq_true_eq] at h1 h2
  omega

/-- `getD` at an index where `getElem?` is known. -/
theorem getD_of_getElem? {l : List ℕ} {i c : ℕ} (h : l[i]? = some c) :
    l.getD i 0 = c := by
  simp [List.getD_eq_getElem?_getD, h]

/-- The last element of a non-trivial `take` is the element before the
cut. -/
theorem getLast?_take_eq {l : List ℕ} {k : ℕ} (hk : 0 < k) (hlen : k ≤ l.length) :
    (l.take k).getLast? = l[k - 1]? := by
  rw [List.getLast?_eq_getElem?]
  have hlen' : (l.take k).length = k := by
    rw [List.length_take]
    omega
  rw [hlen']
  rw [List.getElem?_take]
  rw [if_pos (by omega)]

/-- C9, as literally stated, is false: on a malformed input (two adjacent
high surrogates) the backed-off prefix still ends with an unpaired high
surrogate.  `_safeSlice([0xD800, 0xD800, 0x41], 2)` backs off one unit and
returns `[0xD800]`. -/
theorem c9_claim_counterexample :
    safeSlice [0xD800, 0xD800, 0x41] 2 = [0xD800] ∧
    ([0xD800] : List ℕ).getLast? = some 0xD800 ∧
    isHighSurrogate 0xD800 = true := by
  refine ⟨?_, ?_, ?_⟩ <;> decide

/-- C9 (amended).  For every *well-formed* input (no unpaired surrogates)
and every candidate cut index: a cut at or past the length returns the
whole string, a cut at or below 0 returns the empty string, the returned
prefix never ends with a high-surrogate code unit (so no surrogate pair is
split), and `truncateToFiveLines` either returns the text unchanged or
appends the ellipsis to a trimmed safe slice. -/
theorem c9_safeSlice_spec (text : List ℕ) (hwf : WellFormedUTF16 text) (cut : ℤ)
    (fits : List ℕ → Bool) (ell : ℕ) :
    ((text.length : ℤ) ≤ cut → safeSlice text cut = text) ∧
    (cut ≤ 0 → safeSlice text cut = []) ∧
    (∀ c, (safeSlice text cut).getLast? = some c → isHighSurrogate c = false) ∧
    (truncateToFiveLines text fits ell = text ∨
     ∃ a : ℕ, a < text.length ∧
       truncateToFiveLines text fits ell = jsTrimEnd (safeSlice text (a : ℤ)) ++ [ell]) := by
  refine ⟨?_, ?_, ?_, ?_⟩
  · intro h
    rw [safeSlice, if_pos h]
  · intro h
    by_cases h1 : (text.length : ℤ) ≤ cut
    · have : text.length = 0 := by omega
      rw [safeSlice, if_pos h1]
      exact List.length_eq_zero.1 this
    · rw [safeSlice, if_neg h1, if_pos h]
  · intro c hc
    by_cases h1 : (text.length : ℤ) ≤ cut
    · rw [safeSlice, if_pos h1] at hc
      rw [List.getLast?_eq_getElem?] at hc
      by_contra hhigh
      have hhigh' : isHighSurrogate c = true := by
        cases hb : isHighSurrogate c with
        | false => exact absurd hb hhigh
        | true => rfl
      have hlen0 : 0 < text.length := by
        by_contra hl
        have h0 : text.length = 0 := by omega
        rw [List.length_eq_zero.1 h0] at hc
        simp at hc
      have hgd : text.getD (text.length - 1) 0 = c := getD_of_getElem? hc
      have := hwf (text.length - 1) (by omega) (by rw [hgd]; exact hhigh')
      omega
    · by_cases h2 : cut ≤ 0
      · rw [safeSlice, if_neg h1, if_pos h2] at hc
        simp at hc
      · have hk1 : 1 ≤ cut.toNat := by omega
        have hklen : cut.toNat < text.length := by omega
        rw [safeSlice, if_neg h1, if_neg h2] at hc
        by_cases hh : isHighSurrogate (text.getD (cut.toNat - 1) 0) = true
        · rw [if_pos hh] at hc
          by_cases hz : cut.toNat - 1 = 0
          · rw [hz] at hc
            simp at hc
          · rw [getLast?_take_eq (by omega) (by omega)] at hc
            have hgd : text.getD (cut.toNat - 1 - 1) 0 = c := getD_of_getElem? hc
            by_contra hhigh
            have hhigh' : isHighSurrogate c = true := by
              cases hb : isHighSurrogate c with
              | false => exact absurd hb hhigh
              | true => rfl
            have hlow := hwf (cut.toNat - 1 - 1) (by omega) (by rw [hgd]; exact hhigh')
            have heq : cut.toNat - 1 - 1 + 1 = cut.toNat - 1 := by omega
            rw [heq] at hlow
            exact high_low_disjoint _ hh hlow.2
        · rw [if_neg hh] at hc
          rw [getLast?_take_eq (by omega) (by omega)] at hc
          have hgd : text.getD (cut.toNat - 1) 0 = c := getD_of_getElem? hc
          rw [hgd] at hh
          cases hb : isHighSurrogate c with
          | false => rfl
          | true => exact absurd hb hh
  · rw [truncateToFiveLines]
    by_cases hf : fits text = true
    · rw [if_pos hf]
      left
      rfl
    · rw [if_neg hf]
      simp only
      by_cases hlen : text.length ≤ truncLoop text fits ell 0 (text.length : ℤ) 0
      · rw [if_pos hlen]
        left
        rfl
      · rw [if_neg hlen]
        right
        exact ⟨truncLoop text fits ell 0 (text.length : ℤ) 0, by omega, rfl⟩

/-- Witness for `c9_safeSlice_spec`: `"H😀"` (`[0x48, 0xD83D, 0xDE00]`),
cut between the surrogate halves. -/
theorem c9_safeSlice_spec_witness :
    WellFormedUTF16 [0x48, 0xD83D, 0xDE00] ∧
    (((3:ℤ) ≤ 2 → safeSlice [0x48, 0xD83D, 0xDE00] 2 = [0x48, 0xD83D, 0xDE00]) ∧
     ((2:ℤ) ≤ 0 → safeSlice [0x48, 0xD83D, 0xDE00] 2 = []) ∧
     (∀ c, (safeSlice [0x48, 0xD83D, 0xDE00] 2).getLast? = some c →
        isHighSurrogate c = false) ∧
     (truncateToFiveLines [0x48, 0xD83D, 0xDE00] (fun _ => true) 0x2026
        = [0x48, 0xD83D, 0xDE00] ∨
      ∃ a : ℕ, a < ([0x48, 0xD83D, 0xDE00] : List ℕ).length ∧
        truncateToFiveLines [0x48, 0xD83D, 0xDE00] (fun _ => true) 0x2026
          = jsTrimEnd (safeSlice [0x48, 0xD83D, 0xDE00] (a : ℤ)) ++ [0x2026])) :=
  ⟨by decide,
   c9_safeSlice_spec [0x48, 0xD83D, 0xDE00] (by decide) 2 (fun _ => true) 0x2026⟩

end AIChatTimeline
